import Mathlib

/-!
# Verification of the zarf routing/middleware core

Shallow embedding of the `zarf` HTTP framework core:
* `AppContext` (src/core/context.ts): path normalization, header helpers
  (`setVary`), `halt`, `send`/`head`, the dynamic after-middleware queue;
* the pattern compiler / matcher and the dispatcher, which are not part of
  the provided sources and are modelled from the specification.

JavaScript strings are embedded as Lean `String`s; the JS string operations
used by the code (`split(sep)`, `Array.join(sep)`, `Set` deduplication,
`substring(0, length - 1)`, `endsWith`) are given explicit executable
definitions over the underlying character lists.
-/

namespace Zarf

/-! ## JS string primitives -/

/-- JS `String.prototype.split(sep)` on character lists (single-character
separator). `''.split(sep)` yields `['']`, matching JavaScript. -/
def splitChars (sep : Char) : List Char → List (List Char)
  | [] => [[]]
  | c :: cs =>
    if c = sep then [] :: splitChars sep cs
    else
      match splitChars sep cs with
      | [] => [[c]]
      | s :: ss => (c :: s) :: ss

/-- JS `Array.prototype.join(sep)` on character lists. -/
def joinChars (sep : Char) : List (List Char) → List Char
  | [] => []
  | [s] => s
  | s :: ss => s ++ sep :: joinChars sep ss

/-- JS `String.prototype.split(sep)` for Lean `String`s. -/
def jsSplit (sep : Char) (s : String) : List String :=
  (splitChars sep s.data).map String.mk

/-- JS `Array.prototype.join(sep)` for Lean `String`s. -/
def jsJoin (sep : Char) (l : List String) : String :=
  ⟨joinChars sep (l.map String.data)⟩

/-- JS `[...new Set(l)]`: deduplication keeping the first occurrence,
with an accumulator of already-seen elements. -/
def jsSetDedupAux (seen : List String) : List String → List String
  | [] => []
  | x :: xs =>
    if x ∈ seen then jsSetDedupAux seen xs
    else x :: jsSetDedupAux (x :: seen) xs

/-- JS `[...new Set(l)]`. -/
def jsSetDedup (l : List String) : List String :=
  jsSetDedupAux [] l

/-- JS `s.endsWith(t)` for a one-character suffix. -/
def jsEndsWithChar (c : Char) (s : String) : Bool :=
  s.data.getLast? = some c

/-- JS `s.substring(0, s.length - 1)`: drop the last character. -/
def jsDropLast (s : String) : String :=
  ⟨s.data.dropLast⟩

/-- JS `String.prototype.toLowerCase()` (the code only applies it to ASCII
HTTP method names). -/
def jsToLower (s : String) : String :=
  ⟨s.data.map Char.toLower⟩

/-- A string contains no occurrence of the character `c`. -/
def charFree (c : Char) (s : String) : Prop :=
  c ∉ s.data

instance (c : Char) (s : String) : Decidable (charFree c s) := by
  unfold charFree; infer_instance

/-! ## Response headers

The fetch-API `Headers` object is embedded as an association list with
`get`/`set` (the code only ever uses exact ASCII header names, so header-name
normalization is invisible here). -/

/-- Header list: ordered `(name, value)` pairs. -/
abbrev Headers := List (String × String)

/-- `headers.get(k)`: the value of the first entry named `k`, if any. -/
def headersGet (hs : Headers) (k : String) : Option String :=
  (hs.find? fun p => p.1 = k).map (·.2)

/-- `headers.set(k, v)`: replace the entry named `k`, or append one. -/
def headersSet (hs : Headers) (k v : String) : Headers :=
  if hs.any fun p => p.1 = k then
    hs.map fun p => if p.1 = k then (k, v) else p
  else hs ++ [(k, v)]

/-! ## Path normalization (AppContext constructor, context.ts lines 47-51)

```
this.path = this._config?.strictRouting || this.url.pathname === '/' ?
    this.url.pathname :
    this.url.pathname.endsWith('/') ?
        this.url.pathname.substring(0, this.url.pathname.length -1) :
        this.url.pathname
```
-/

/-- The normalized request path computed by the `AppContext` constructor. -/
def normalizePath (strictRouting : Bool) (pathname : String) : String :=
  if strictRouting || pathname = "/" then pathname
  else if jsEndsWithChar '/' pathname then jsDropLast pathname
  else pathname

/-! ## JSON values and JS truthiness -/

/-- The `JSONValue` type of bodies (src/core/types): JSON data. Numbers are
embedded as integers; none of the verified properties depend on non-integral
numbers. -/
inductive JSONValue where
  | null : JSONValue
  | bool (b : Bool) : JSONValue
  | num (n : Int) : JSONValue
  | str (s : String) : JSONValue
  | arr (xs : List JSONValue) : JSONValue
  | obj (fields : List (String × JSONValue)) : JSONValue

/-- JavaScript truthiness of a `JSONValue` (for `body || ...`): `null`,
`false`, `0` and `""` are falsy; arrays and objects are always truthy. -/
def jsTruthy : JSONValue → Bool
  | .null => false
  | .bool b => b
  | .num n => n ≠ 0
  | .str s => s ≠ ""
  | .arr _ => true
  | .obj _ => true

/-- Modelled from the spec: the repository's HTTP status-code → reason-phrase
table (`HTTP_STATUS_CODES` from src/core/constants/codes, not among the
provided sources); the standard reason phrases for the codes exercised here. -/
def HTTP_STATUS_CODES : Nat → String
  | 200 => "OK"
  | 302 => "Found"
  | 401 => "Unauthorized"
  | 404 => "Not Found"
  | 500 => "Internal Server Error"
  | _ => ""

/-! ## The per-request context (src/core/context.ts) -/

/-- The request object the context is constructed from: method, parsed URL
pathname and host, and request headers (URL parsing itself is an external
collaborator). -/
structure RequestM where
  method : String
  pathname : String
  host : String
  reqHeaders : Headers
deriving DecidableEq, Repr

/-- The `ZarfConfig` fields the context reads. -/
structure ConfigM where
  strictRouting : Bool := false
  serverHeader : Option String := none
deriving DecidableEq, Repr

/-- The mutable in-progress `Response` held by the context: status,
status text and headers (`new Response('')` starts at 200 / empty status
text, with the fetch-default `Content-Type` for a string body). -/
structure RespState where
  status : Nat := 200
  statusText : String := ""
  headers : Headers := []
deriving DecidableEq, Repr

/-- A `ResponseInit` dictionary: each field may be absent. -/
structure ResponseInitM where
  headers : Option Headers := none
  status : Option Nat := none
  statusText : Option String := none
deriving DecidableEq, Repr

/-- JS object spread `{...a, ...b}` of two `ResponseInit` dictionaries:
fields present in `b` override those of `a`. -/
def mergeInit (a b : ResponseInitM) : ResponseInitM where
  headers := match b.headers with | some h => some h | none => a.headers
  status := match b.status with | some s => some s | none => a.status
  statusText := match b.statusText with | some t => some t | none => a.statusText

/-- The state of an `AppContext` over middleware-function type `F`, locals
type `S` and error-slot type `E`. `method`, `path`, `host` and `request` are
`readonly` in the source; the remaining fields are mutable. -/
structure ContextState (F S E : Type) where
  request : RequestM
  method : String
  path : String
  host : String
  response : Option RespState
  code : Option Nat
  error : Option E
  locals : S
  middlewares : List F
  isImmediate : Bool
  body : Option JSONValue

/-- The `AppContext` constructor (context.ts lines 38-73): lowercases the
method, normalizes the path, creates a fresh `Response('')` and applies the
configured `Server` header. -/
def mkContext {F S E : Type} (req : RequestM) (cfg : ConfigM) (locals0 : S) :
    ContextState F S E where
  request := req
  method := jsToLower req.method
  path := normalizePath cfg.strictRouting req.pathname
  host := req.host
  response := some
    { status := 200
      statusText := ""
      headers :=
        match cfg.serverHeader with
        | some sh => headersSet [("content-type", "text/plain;charset=UTF-8")] "Server" sh
        | none => [("content-type", "text/plain;charset=UTF-8")] }
  code := none
  error := none
  locals := locals0
  middlewares := []
  isImmediate := false
  body := none

/-- `AppContext.getResponseInit` (context.ts lines 269-287): the settings of
the current `Response`, or the empty dictionary when there is none. -/
def getResponseInit {F S E : Type} (ctx : ContextState F S E) : ResponseInitM :=
  match ctx.response with
  | some r => { headers := some r.headers, status := some r.status, statusText := some r.statusText }
  | none => {}

/-- The `ZarfHaltError` signal thrown by `AppContext.halt`: status code, body
and `ResponseInit` payload. It is a control-flow signal, not an application
error. -/
structure ZarfHaltErrorM where
  status : Nat
  body : JSONValue
  responseInit : ResponseInitM

/-- `AppContext.halt(statusCode, body?)` (context.ts lines 239-248): the
signal it unconditionally throws. `body || HTTP_STATUS_CODES[statusCode]`
replaces a falsy or absent body by the reason phrase; the `ResponseInit` is
the current one with `status` overridden by `statusCode`. -/
def halt {F S E : Type} (ctx : ContextState F S E) (statusCode : Nat)
    (body : Option JSONValue) : ZarfHaltErrorM where
  status := statusCode
  body :=
    match body with
    | some b => if jsTruthy b then b else .str (HTTP_STATUS_CODES statusCode)
    | none => .str (HTTP_STATUS_CODES statusCode)
  responseInit := { getResponseInit ctx with status := some statusCode }

/-- An abstract transport response as produced by the response-formatting
helpers: status, status text, headers and an optional body. -/
structure ResponseM where
  status : Nat
  statusText : String
  headers : Headers
  body : Option JSONValue

/-- Modelled from the spec: the excluded response-formatting collaborator
`head` (src/core/response) — "Just return with `head` details": a transport
response carrying only the response metadata, with no body. -/
def headHelper (init : ResponseInitM) : ResponseM where
  status := init.status.getD 200
  statusText := init.statusText.getD ""
  headers := init.headers.getD []
  body := none

/-- Modelled from the spec: the excluded response-formatting collaborator
`send` (src/core/response) — converts a body value and response metadata
into a transport response. -/
def sendHelper (body : JSONValue) (init : ResponseInitM) : ResponseM where
  status := init.status.getD 200
  statusText := init.statusText.getD ""
  headers := init.headers.getD []
  body := some body

/-- `AppContext.head(args = {})` (context.ts lines 210-212). -/
def ctxHead {F S E : Type} (ctx : ContextState F S E)
    (args : ResponseInitM := {}) : ResponseM :=
  headHelper (mergeInit (getResponseInit ctx) args)

/-- `AppContext.send(body, args = {})` (context.ts lines 174-177): for a
`HEAD` request the body is discarded and `this.head()` is returned. -/
def ctxSend {F S E : Type} (ctx : ContextState F S E) (body : JSONValue)
    (args : ResponseInitM := {}) : ResponseM :=
  if ctx.request.method = "HEAD" then ctxHead ctx
  else sendHelper body (mergeInit (getResponseInit ctx) args)

/-- The header-value computation inside `AppContext.setVary` (context.ts
lines 134-139): split the existing `Vary` header (or `''`) on `','`, merge
with the new values through a JS `Set`, and join back with `','`. -/
def varyValue (current : Option String) (headerVals : List String) : String :=
  jsJoin ',' (jsSetDedup (jsSplit ',' (current.getD "") ++ headerVals))

/-- `AppContext.setVary(...headerVals)` (context.ts lines 134-139) as a state
transformer: a no-op for an empty argument list or when there is no response;
otherwise sets `Vary` to `varyValue`. -/
def setVary {F S E : Type} (ctx : ContextState F S E) (headerVals : List String) :
    ContextState F S E :=
  if headerVals.isEmpty then ctx
  else
    match ctx.response with
    | none => ctx
    | some r =>
      { ctx with
        response := some
          { r with
            headers := headersSet r.headers "Vary"
              (varyValue (headersGet r.headers "Vary") headerVals) } }

/-- `AppContext.setHeader(k, v)` (context.ts lines 113-115) as a state
transformer (`this._response?.headers.set(...)`). -/
def setHeader {F S E : Type} (ctx : ContextState F S E) (k v : String) :
    ContextState F S E :=
  match ctx.response with
  | none => ctx
  | some r => { ctx with response := some { r with headers := headersSet r.headers k v } }

/-- `AppContext.after(func)` (context.ts lines 289-291): push onto the
private `_middlewares` queue. -/
def after {F S E : Type} (ctx : ContextState F S E) (f : F) : ContextState F S E :=
  { ctx with middlewares := ctx.middlewares ++ [f] }

/-- `AppContext.afterMiddlewares` (context.ts lines 293-295). -/
def afterMiddlewares {F S E : Type} (ctx : ContextState F S E) : List F :=
  ctx.middlewares

/-- Every state-mutating operation of the `AppContext` class: the `response`,
`status`, `error`, `locals` and `body` setters, the header helpers `setHeader`,
`setType` (with the externally resolved content type, `none` when unknown) and
`setVary`, the after-queue `after`, and `redirect` (which sets `_isImmediate`).
The remaining members (`send`, `json`, `text`, `html`, `head`, `halt`,
`isType`, `accepts`, getters) do not mutate the context. -/
inductive ContextOp (F S E : Type) where
  | setResponse (r : Option RespState)
  | setStatus (c : Nat)
  | setErrorOp (e : E)
  | setLocals (s : S)
  | setBody (b : Option JSONValue)
  | setHeaderOp (k v : String)
  | setTypeOp (contentType : Option String)
  | setVaryOp (vals : List String)
  | afterOp (f : F)
  | redirectOp

/-- Apply one `AppContext` operation to the context state. -/
def applyOp {F S E : Type} (ctx : ContextState F S E) : ContextOp F S E → ContextState F S E
  | .setResponse r => { ctx with response := r }
  | .setStatus c => { ctx with code := some c }
  | .setErrorOp e => { ctx with error := some e }
  | .setLocals s => { ctx with locals := s }
  | .setBody b => { ctx with body := b }
  | .setHeaderOp k v => setHeader ctx k v
  | .setTypeOp ct =>
    match ct with
    | some c => setHeader ctx "Content-Type" c
    | none => ctx
  | .setVaryOp vals => setVary ctx vals
  | .afterOp f => after ctx f
  | .redirectOp => { ctx with isImmediate := true }

/-- Apply a sequence of `AppContext` operations in order. -/
def applyOps {F S E : Type} (ctx : ContextState F S E) :
    List (ContextOp F S E) → ContextState F S E
  | [] => ctx
  | op :: ops => applyOps (applyOp ctx op) ops

/-- The functions passed to the `after` calls of an operation sequence, in
call order. -/
def afterCalls {F S E : Type} : List (ContextOp F S E) → List F
  | [] => []
  | .afterOp f :: ops => f :: afterCalls ops
  | _ :: ops => afterCalls ops

/-! ## Pattern compiler and matcher

The route matcher and pattern compiler are part of this repository but not
among the provided sources; they are modelled from the specification
(§3 Segment, §4.1 Pattern Compiler, §4.2 Matcher). -/

/-- Modelled from the spec: one atomic unit of a compiled path pattern —
static literal, required named parameter, optional named parameter, or
wildcard capture (§3 "Segment"). -/
inductive Segment where
  | static (s : String)
  | param (name : String)
  | optionalParam (name : String)
  | wildcard (name : String)
deriving DecidableEq, Repr

/-- Modelled from the spec: compile one pattern segment — `:name` a required
named segment, `:name?` an optional named segment, `*name` a wildcard
capture, anything else a static literal (§4.1). -/
def compileSegment (s : String) : Segment :=
  match s.data with
  | '*' :: rest => .wildcard ⟨rest⟩
  | ':' :: rest =>
    if rest.getLast? = some '?' then .optionalParam ⟨rest.dropLast⟩
    else .param ⟨rest⟩
  | _ => .static s

/-- The slash-separated segments of a path, empty segments dropped (so `/`
has no segments and `/a/b` has segments `a`, `b`). -/
def pathSegments (path : String) : List String :=
  (jsSplit '/' path).filter fun s => s ≠ ""

/-- Modelled from the spec: the Pattern Compiler — a route path string as an
ordered list of typed segments (§4.1). -/
def compilePattern (pattern : String) : List Segment :=
  (pathSegments pattern).map compileSegment

/-- The bindings extracted by a match: parameter name / value pairs in
pattern order. An optional parameter that is absent contributes no pair. -/
abbrev Bindings := List (String × String)

/-- Modelled from the spec: wildcard resolution — the wildcard has already
captured `acc` (one or more segments); extend the capture one segment at a
time until the rest of the pattern (`matchRest`) matches the remaining
request segments, without backtracking (§4.2: "each consumes the minimal run
required to let the remainder of the pattern still match"). -/
def findSplit (matchRest : List String → Option Bindings) :
    List String → List String → Option (String × Bindings)
  | acc, [] => (matchRest []).map fun b => (jsJoin '/' acc, b)
  | acc, q :: qs =>
    match matchRest (q :: qs) with
    | some b => some (jsJoin '/' acc, b)
    | none => findSplit matchRest (acc ++ [q]) qs

/-- Modelled from the spec: structural segment-by-segment matching of a
compiled pattern against the request path's segments (§4.2): a static
segment requires equality; a param segment consumes exactly one segment and
binds it; an optional-param segment binds its segment when present and is
skipped when the path is exhausted; a wildcard segment greedily captures one
or more segments, minimal-run, joined by `/`. -/
def matchSegs : List Segment → List String → Option Bindings
  | [], [] => some []
  | [], _ :: _ => none
  | .static s :: ps, q :: qs => if s = q then matchSegs ps qs else none
  | .static _ :: _, [] => none
  | .param n :: ps, q :: qs => (matchSegs ps qs).map fun b => (n, q) :: b
  | .param _ :: _, [] => none
  | .optionalParam n :: ps, q :: qs => (matchSegs ps qs).map fun b => (n, q) :: b
  | .optionalParam _ :: ps, [] => matchSegs ps []
  | .wildcard n :: ps, q :: qs =>
    (findSplit (fun rest => matchSegs ps rest) [q] qs).map fun vb => (n, vb.1) :: vb.2
  | .wildcard _ :: _, [] => none
termination_by ps _ => ps.length

/-- Modelled from the spec: a compiled route — HTTP method and compiled
segment list (§3 "CompiledRoute"; handler and middleware are carried
separately by the dispatcher model). -/
structure Route where
  method : String
  segments : List Segment
deriving DecidableEq, Repr

/-- A route built from a method and a path pattern string. -/
def mkRoute (method pattern : String) : Route :=
  ⟨method, compilePattern pattern⟩

/-- Modelled from the spec: the Matcher — filter the registered routes for
the request method and return the first route (in registration order) whose
full pattern matches, with its extracted bindings (§4.2). -/
def matchRequest (routes : List Route) (method path : String) :
    Option (Route × Bindings) :=
  (routes.filter fun r => r.method = method).findSome? fun r =>
    (matchSegs r.segments (pathSegments path)).map fun b => (r, b)

/-! ## Dispatcher

The dispatcher is part of this repository but not among the provided
sources; it is modelled from the specification (§4.5 Halt, §4.6 Dispatcher
state machine, §9 Design Notes). -/

/-- Modelled from the spec: the observed behaviour of one before-chain link
(§4.4, §9): it either calls `next()`, short-circuits with a response value,
invokes `halt`, or throws a non-halt error. -/
inductive StepResult where
  | next : StepResult
  | respond (r : ResponseM) : StepResult
  | haltSig (status : Nat) (body : JSONValue) : StepResult
  | fault : StepResult

/-- Modelled from the spec: how the before-chain/handler phase terminated
(§4.6): normal completion, halt, or a non-halt fault. -/
inductive ChainOutcome where
  | completed : ChainOutcome
  | halted (status : Nat) (body : JSONValue) : ChainOutcome
  | faulted : ChainOutcome

/-- Modelled from the spec: run the before-chain links sequentially (§4.4,
§4.6): a link that calls `next()` passes control on; a returned response or
an exhausted chain completes normally; `halt` and faults end the phase with
the corresponding outcome. -/
def runBefore : List StepResult → ChainOutcome
  | [] => .completed
  | .next :: rest => runBefore rest
  | .respond _ :: _ => .completed
  | .haltSig s b :: _ => .halted s b
  | .fault :: _ => .faulted

/-- Modelled from the spec: the `RUNNING_AFTER` phase executes each queued
after-middleware in order, purely for side effects (§4.6); the trace of
executed functions is returned. -/
def runAfterChain {F : Type} : List F → List F
  | [] => []
  | f :: fs => f :: runAfterChain fs

/-- Modelled from the spec: which dynamically queued after-middlewares the
dispatcher executes (§4.5, §4.6): the whole queue on normal completion or
halt, none after a non-halt fault (the after-chain is skipped). -/
def dispatchAfterRun {F : Type} (outcome : ChainOutcome) (queued : List F) : List F :=
  match outcome with
  | .faulted => []
  | _ => runAfterChain queued

/-! ## Concrete sample contexts -/

/-- A context for a plain `GET /` request with the default configuration. -/
def sampleCtx : ContextState Unit Unit Unit :=
  mkContext ⟨"GET", "/", "example.com", []⟩ {} ()

/-- A context for a `HEAD /x` request with the default configuration. -/
def sampleHeadCtx : ContextState Unit Unit Unit :=
  mkContext ⟨"HEAD", "/x", "example.com", []⟩ {} ()

/-! ## Helper lemmas: split / join -/

theorem splitChars_ne_nil (sep : Char) (cs : List Char) : splitChars sep cs ≠ [] := by
  induction cs with
  | nil => simp [splitChars]
  | cons c cs ih =>
    simp only [splitChars]
    split
    · simp
    · cases h : splitChars sep cs with
      | nil => simp
      | cons s ss => simp

theorem splitChars_append (sep : Char) (x cs : List Char) (hx : sep ∉ x)
    (s : List Char) (ss : List (List Char)) (h : splitChars sep cs = s :: ss) :
    splitChars sep (x ++ cs) = (x ++ s) :: ss := by
  induction x with
  | nil => simpa using h
  | cons c x ih =>
    have hc : c ≠ sep := by
      intro hcs; exact hx (hcs ▸ List.mem_cons_self c x)
    have hx' : sep ∉ x := fun hm => hx (List.mem_cons_of_mem c hm)
    have ih' := ih hx'
    simp only [List.cons_append, splitChars, if_neg hc, List.append_eq]
    rw [ih']

theorem sep_not_mem_of_mem_splitChars (sep : Char) (cs : List Char) :
    ∀ s ∈ splitChars sep cs, sep ∉ s := by
  induction cs with
  | nil =>
    intro s hs
    simp [splitChars] at hs
    simp [hs]
  | cons c cs ih =>
    intro s hs
    simp only [splitChars] at hs
    by_cases hc : c = sep
    · rw [if_pos hc] at hs
      rcases List.mem_cons.mp hs with h | h
      · simp [h]
      · exact ih s h
    · rw [if_neg hc] at hs
      cases hsp : splitChars sep cs with
      | nil => exact absurd hsp (splitChars_ne_nil sep cs)
      | cons t ts =>
        rw [hsp] at hs
        rcases List.mem_cons.mp hs with h | h
        · subst h
          intro hmem
          rcases List.mem_cons.mp hmem with h' | h'
          · exact hc h'.symm
          · exact ih t (hsp ▸ List.mem_cons_self t ts) h'
        · exact ih s (hsp ▸ List.mem_cons_of_mem t h)

theorem splitChars_joinChars (sep : Char) (L : List (List Char)) (hne : L ≠ [])
    (hfree : ∀ s ∈ L, sep ∉ s) : splitChars sep (joinChars sep L) = L := by
  induction L with
  | nil => exact absurd rfl hne
  | cons x L ih =>
    cases L with
    | nil =>
      have hx : sep ∉ x := hfree x (List.mem_cons_self x [])
      have h0 : splitChars sep ([] : List Char) = [] :: [] := by simp [splitChars]
      have := splitChars_append sep x [] hx [] [] h0
      simpa [joinChars] using this
    | cons y t =>
      have hx : sep ∉ x := hfree x (List.mem_cons_self _ _)
      have hfree' : ∀ s ∈ y :: t, sep ∉ s := fun s hs => hfree s (List.mem_cons_of_mem x hs)
      have ihyt : splitChars sep (joinChars sep (y :: t)) = y :: t := ih (by simp) hfree'
      have hsep : splitChars sep (sep :: joinChars sep (y :: t)) = [] :: y :: t := by
        simp [splitChars, ihyt]
      have := splitChars_append sep x (sep :: joinChars sep (y :: t)) hx [] (y :: t) hsep
      simpa [joinChars] using this

theorem mkString_data (s : String) : String.mk s.data = s := rfl

theorem jsSplit_ne_nil (sep : Char) (s : String) : jsSplit sep s ≠ [] := by
  simp only [jsSplit, ne_eq, List.map_eq_nil_iff]
  exact splitChars_ne_nil sep s.data

theorem charFree_of_mem_jsSplit (sep : Char) (s : String) :
    ∀ v ∈ jsSplit sep s, charFree sep v := by
  intro v hv
  simp only [jsSplit, List.mem_map] at hv
  obtain ⟨cs, hcs, rfl⟩ := hv
  exact sep_not_mem_of_mem_splitChars sep s.data cs hcs

theorem jsSplit_jsJoin (sep : Char) (L : List String) (hne : L ≠ [])
    (hfree : ∀ v ∈ L, charFree sep v) : jsSplit sep (jsJoin sep L) = L := by
  simp only [jsSplit, jsJoin]
  rw [splitChars_joinChars sep (L.map String.data)
    (by simpa using hne)
    (by
      intro s hs
      simp only [List.mem_map] at hs
      obtain ⟨v, hv, rfl⟩ := hs
      exact hfree v hv)]
  rw [List.map_map]
  have : (String.mk ∘ String.data) = id := by
    funext v
    exact mkString_data v
  simp [this]

/-! ## Helper lemmas: JS `Set` deduplication -/

theorem mem_jsSetDedupAux (a : String) (l : List String) :
    ∀ seen, a ∈ jsSetDedupAux seen l ↔ a ∈ l ∧ a ∉ seen := by
  induction l with
  | nil => intro seen; simp [jsSetDedupAux]
  | cons x xs ih =>
    intro seen
    simp only [jsSetDedupAux]
    by_cases hx : x ∈ seen
    · rw [if_pos hx, ih seen]
      constructor
      · rintro ⟨h1, h2⟩; exact ⟨List.mem_cons_of_mem x h1, h2⟩
      · rintro ⟨h1, h2⟩
        rcases List.mem_cons.mp h1 with rfl | h1
        · exact absurd hx h2
        · exact ⟨h1, h2⟩
    · rw [if_neg hx]
      constructor
      · intro h
        rcases List.mem_cons.mp h with rfl | h
        · exact ⟨List.mem_cons_self _ _, hx⟩
        · rw [ih (x :: seen)] at h
          refine ⟨List.mem_cons_of_mem x h.1, fun hs => h.2 (List.mem_cons_of_mem x hs)⟩
      · rintro ⟨h1, h2⟩
        rcases List.mem_cons.mp h1 with rfl | h1
        · exact List.mem_cons_self _ _
        · by_cases hax : a = x
          · subst hax; exact List.mem_cons_self _ _
          · refine List.mem_cons_of_mem x ?_
            rw [ih (x :: seen)]
            exact ⟨h1, fun hs => by
              rcases List.mem_cons.mp hs with h | h
              · exact hax h
              · exact h2 h⟩

theorem mem_jsSetDedup (a : String) (l : List String) : a ∈ jsSetDedup l ↔ a ∈ l := by
  rw [jsSetDedup, mem_jsSetDedupAux]
  simp

theorem jsSetDedupAux_nodup (l : List String) : ∀ seen, (jsSetDedupAux seen l).Nodup := by
  induction l with
  | nil => intro seen; simp [jsSetDedupAux]
  | cons x xs ih =>
    intro seen
    simp only [jsSetDedupAux]
    by_cases hx : x ∈ seen
    · rw [if_pos hx]; exact ih seen
    · rw [if_neg hx]
      refine List.nodup_cons.mpr ⟨?_, ih (x :: seen)⟩
      rw [mem_jsSetDedupAux]
      rintro ⟨-, h2⟩
      exact h2 (List.mem_cons_self _ _)

theorem jsSetDedup_nodup (l : List String) : (jsSetDedup l).Nodup :=
  jsSetDedupAux_nodup l []

theorem jsSetDedup_ne_nil (l : List String) (h : l ≠ []) : jsSetDedup l ≠ [] := by
  cases l with
  | nil => exact absurd rfl h
  | cons x xs => simp [jsSetDedup, jsSetDedupAux]

theorem jsSetDedupAux_of_subset (hs : List String) :
    ∀ seen, (∀ a ∈ hs, a ∈ seen) → jsSetDedupAux seen hs = [] := by
  induction hs with
  | nil => intro seen _; simp [jsSetDedupAux]
  | cons x xs ih =>
    intro seen hsub
    simp only [jsSetDedupAux, if_pos (hsub x (List.mem_cons_self _ _))]
    exact ih seen fun a ha => hsub a (List.mem_cons_of_mem x ha)

theorem jsSetDedupAux_append_of_nodup (hs : List String) (L : List String) :
    ∀ seen, L.Nodup → (∀ a ∈ L, a ∉ seen) → (∀ a ∈ hs, a ∈ L ∨ a ∈ seen) →
    jsSetDedupAux seen (L ++ hs) = L := by
  induction L with
  | nil =>
    intro seen _ _ hsub
    simp only [List.nil_append]
    exact jsSetDedupAux_of_subset hs seen fun a ha => by
      rcases hsub a ha with h | h
      · exact absurd h (List.not_mem_nil a)
      · exact h
  | cons x L ih =>
    intro seen hnd hnotseen hsub
    have hx : x ∉ seen := hnotseen x (List.mem_cons_self _ _)
    simp only [List.cons_append, jsSetDedupAux, if_neg hx]
    congr 1
    refine ih (x :: seen) (List.nodup_cons.mp hnd).2 ?_ ?_
    · intro a ha hmem
      rcases List.mem_cons.mp hmem with rfl | h
      · exact (List.nodup_cons.mp hnd).1 ha
      · exact hnotseen a (List.mem_cons_of_mem x ha) h
    · intro a ha
      rcases hsub a ha with h | h
      · rcases List.mem_cons.mp h with rfl | h
        · exact Or.inr (List.mem_cons_self _ _)
        · exact Or.inl h
      · exact Or.inr (List.mem_cons_of_mem x h)

theorem jsSetDedup_append_of_nodup (L hs : List String) (hnd : L.Nodup)
    (hsub : ∀ a ∈ hs, a ∈ L) : jsSetDedup (L ++ hs) = L :=
  jsSetDedupAux_append_of_nodup hs L [] hnd (by simp) fun a ha => Or.inl (hsub a ha)

/-! ## Helper lemmas: header association list -/

theorem headersGet_headersSet_self (hs : Headers) (k v : String) :
    headersGet (headersSet hs k v) k = some v := by
  simp only [headersSet]
  by_cases h : hs.any fun p => p.1 = k
  · rw [if_pos h]
    induction hs with
    | nil => simp at h
    | cons p t ih =>
      by_cases hp : p.1 = k
      · simp only [List.map_cons, if_pos hp]
        rw [headersGet, List.find?_cons_of_pos _ (by simp)]
        simp
      · have ht : t.any fun q => q.1 = k := by
          simp only [List.any_cons] at h
          rcases Bool.or_eq_true_iff.mp h with h' | h'
          · exact absurd (by simpa using h') hp
          · exact h'
        simp only [List.map_cons, if_neg hp]
        rw [headersGet] at ih ⊢
        rw [List.find?_cons_of_neg _ (by simpa using hp)]
        exact ih ht
  · rw [if_neg h]
    induction hs with
    | nil =>
      rw [headersGet, List.nil_append, List.find?_cons_of_pos _ (by simp)]
      simp
    | cons p t ih =>
      simp only [List.any_cons, Bool.or_eq_true_iff, not_or] at h
      have hp : ¬(p.1 = k) := by simpa using h.1
      simp only [List.cons_append]
      rw [headersGet] at ih ⊢
      rw [List.find?_cons_of_neg _ (by simpa using hp)]
      exact ih (by simpa using h.2)

theorem headersSet_headersSet_self (hs : Headers) (k v : String) :
    headersSet (headersSet hs k v) k v = headersSet hs k v := by
  simp only [headersSet]
  by_cases h : hs.any fun p => p.1 = k
  · rw [if_pos h]
    have hany : (hs.map fun p => if p.1 = k then (k, v) else p).any (fun p => p.1 = k) = true := by
      rw [List.any_eq_true] at h ⊢
      obtain ⟨p, hp, hpk⟩ := h
      refine ⟨(k, v), List.mem_map.mpr ⟨p, hp, ?_⟩, by simp⟩
      simp [if_pos (by simpa using hpk)]
    rw [if_pos hany, List.map_map]
    apply List.map_congr_left
    intro p _
    by_cases hp : p.1 = k
    · simp [hp]
    · simp [hp]
  · rw [if_neg h]
    have hany : ((hs ++ [(k, v)]).any fun p => p.1 = k) = true := by
      rw [List.any_eq_true]
      exact ⟨(k, v), List.mem_append_right _ (List.mem_cons_self _ _), by simp⟩
    rw [if_pos hany, List.map_append]
    congr 1
    · conv_rhs => rw [← List.map_id hs]
      apply List.map_congr_left
      intro p hp
      have : ¬(p.1 = k) := by
        intro hpk
        rw [List.any_eq_true] at h
        exact h ⟨p, hp, by simpa using hpk⟩
      simp [this]
    · simp

/-! ## Helper lemmas: Vary computation -/

theorem varyValue_idem (v0 : Option String) (vals : List String)
    (hvals : ∀ v ∈ vals, charFree ',' v) :
    varyValue (some (varyValue v0 vals)) vals = varyValue v0 vals := by
  have hMne : jsSplit ',' (v0.getD "") ++ vals ≠ [] := fun h =>
    jsSplit_ne_nil ',' (v0.getD "") (List.append_eq_nil.mp h).1
  have hDne : jsSetDedup (jsSplit ',' (v0.getD "") ++ vals) ≠ [] :=
    jsSetDedup_ne_nil _ hMne
  have hDfree : ∀ s ∈ jsSetDedup (jsSplit ',' (v0.getD "") ++ vals), charFree ',' s := by
    intro s hs
    rcases List.mem_append.mp ((mem_jsSetDedup s _).mp hs) with h | h
    · exact charFree_of_mem_jsSplit ',' _ s h
    · exact hvals s h
  have hsub : ∀ a ∈ vals, a ∈ jsSetDedup (jsSplit ',' (v0.getD "") ++ vals) := fun a ha =>
    (mem_jsSetDedup a _).mpr (List.mem_append_right _ ha)
  simp only [varyValue, Option.getD_some]
  rw [jsSplit_jsJoin ',' _ hDne hDfree,
    jsSetDedup_append_of_nodup _ vals (jsSetDedup_nodup _) hsub]

/-! ## Helper lemmas: context operations -/

theorem setHeader_middlewares {F S E : Type} (ctx : ContextState F S E) (k v : String) :
    (setHeader ctx k v).middlewares = ctx.middlewares := by
  cases hr : ctx.response <;> simp [setHeader, hr]

theorem setVary_middlewares {F S E : Type} (ctx : ContextState F S E) (vals : List String) :
    (setVary ctx vals).middlewares = ctx.middlewares := by
  by_cases hv : vals.isEmpty
  · simp [setVary, hv]
  · cases hr : ctx.response <;> simp [setVary, hv, hr]

theorem applyOp_middlewares {F S E : Type} (ctx : ContextState F S E) (op : ContextOp F S E) :
    (applyOp ctx op).middlewares = ctx.middlewares ++ afterCalls [op] := by
  cases op with
  | setHeaderOp k v => simp [applyOp, afterCalls, setHeader_middlewares]
  | setTypeOp ct =>
    cases ct with
    | none => simp [applyOp, afterCalls]
    | some c => simp [applyOp, afterCalls, setHeader_middlewares]
  | setVaryOp vals => simp [applyOp, afterCalls, setVary_middlewares]
  | afterOp f => simp [applyOp, afterCalls, after]
  | setResponse r => simp [applyOp, afterCalls]
  | setStatus c => simp [applyOp, afterCalls]
  | setErrorOp e => simp [applyOp, afterCalls]
  | setLocals s => simp [applyOp, afterCalls]
  | setBody b => simp [applyOp, afterCalls]
  | redirectOp => simp [applyOp, afterCalls]

theorem afterCalls_cons {F S E : Type} (op : ContextOp F S E) (ops : List (ContextOp F S E)) :
    afterCalls (op :: ops) = afterCalls [op] ++ afterCalls ops := by
  cases op <;> simp [afterCalls]

theorem applyOps_middlewares {F S E : Type} (ops : List (ContextOp F S E)) :
    ∀ ctx : ContextState F S E,
    (applyOps ctx ops).middlewares = ctx.middlewares ++ afterCalls ops := by
  induction ops with
  | nil => intro ctx; simp [applyOps, afterCalls]
  | cons op ops ih =>
    intro ctx
    rw [applyOps, ih (applyOp ctx op), applyOp_middlewares, List.append_assoc,
      ← afterCalls_cons]

theorem setHeader_method {F S E : Type} (ctx : ContextState F S E) (k v : String) :
    (setHeader ctx k v).method = ctx.method := by
  cases hr : ctx.response <;> simp [setHeader, hr]

theorem setVary_method {F S E : Type} (ctx : ContextState F S E) (vals : List String) :
    (setVary ctx vals).method = ctx.method := by
  by_cases hv : vals.isEmpty
  · simp [setVary, hv]
  · cases hr : ctx.response <;> simp [setVary, hv, hr]

theorem applyOp_method {F S E : Type} (ctx : ContextState F S E) (op : ContextOp F S E) :
    (applyOp ctx op).method = ctx.method := by
  cases op with
  | setHeaderOp k v => simp [applyOp, setHeader_method]
  | setTypeOp ct =>
    cases ct with
    | none => simp [applyOp]
    | some c => simp [applyOp, setHeader_method]
  | setVaryOp vals => simp [applyOp, setVary_method]
  | afterOp f => simp [applyOp, after]
  | setResponse r => simp [applyOp]
  | setStatus c => simp [applyOp]
  | setErrorOp e => simp [applyOp]
  | setLocals s => simp [applyOp]
  | setBody b => simp [applyOp]
  | redirectOp => simp [applyOp]

theorem applyOps_method {F S E : Type} (ops : List (ContextOp F S E)) :
    ∀ ctx : ContextState F S E, (applyOps ctx ops).method = ctx.method := by
  induction ops with
  | nil => intro ctx; simp [applyOps]
  | cons op ops ih =>
    intro ctx
    rw [applyOps, ih (applyOp ctx op), applyOp_method]

theorem runAfterChain_eq {F : Type} (fs : List F) : runAfterChain fs = fs := by
  induction fs with
  | nil => simp [runAfterChain]
  | cons f fs ih => simp [runAfterChain, ih]

theorem mergeInit_empty (a : ResponseInitM) : mergeInit a {} = a := by
  simp [mergeInit]

/-! ## Helper lemmas: matcher -/

theorem matchRequest_first_match (pre : List Route) (r : Route) (post : List Route)
    (method path : String) (b : Bindings)
    (hpre : ∀ r' ∈ pre, r'.method = method → matchSegs r'.segments (pathSegments path) = none)
    (hr : r.method = method)
    (hm : matchSegs r.segments (pathSegments path) = some b) :
    matchRequest (pre ++ r :: post) method path = some (r, b) := by
  induction pre with
  | nil =>
    have hfil : decide (r.method = method) = true := by simp [hr]
    simp only [List.nil_append, matchRequest, List.filter_cons, hfil, if_true]
    simp [List.findSome?, hm]
  | cons p pre ih =>
    have ihr := ih fun r' h hm' => hpre r' (List.mem_cons_of_mem p h) hm'
    by_cases hpm : p.method = method
    · have hfil : decide (p.method = method) = true := by simp [hpm]
      have hnone := hpre p (List.mem_cons_self _ _) hpm
      simp only [matchRequest] at ihr
      rw [List.filter_append] at ihr
      simp only [List.cons_append, matchRequest, List.filter_cons, hfil, if_true]
      simp [List.findSome?, hnone, ihr]
    · have hfil : decide (p.method = method) = false := by simp [hpm]
      simp only [matchRequest] at ihr
      simp only [List.cons_append, matchRequest, List.filter_cons, hfil,
        Bool.false_eq_true, if_false]
      exact ihr

theorem findSplit_matchNil (qs : List String) :
    ∀ acc, findSplit (fun rest => matchSegs [] rest) acc qs
      = some (jsJoin '/' (acc ++ qs), []) := by
  induction qs with
  | nil => intro acc; simp [findSplit, matchSegs]
  | cons q qs ih =>
    intro acc
    have hnone : matchSegs [] (q :: qs) = none := by simp [matchSegs]
    simp only [findSplit, hnone]
    rw [ih (acc ++ [q]), ← List.append_cons]

theorem dropLast_append_getLast?_char (l : List Char) (c : Char)
    (h : l.getLast? = some c) : l.dropLast ++ [c] = l := by
  induction l with
  | nil => simp at h
  | cons x xs ih =>
    cases xs with
    | nil =>
      simp only [List.getLast?_singleton, Option.some.injEq] at h
      simp [h]
    | cons y ys =>
      rw [List.getLast?_cons_cons] at h
      simp only [List.dropLast_cons₂, List.cons_append]
      rw [ih h]

theorem jsDropLast_append_slash (s : String) (h : jsEndsWithChar '/' s = true) :
    jsDropLast s ++ "/" = s := by
  have hl : s.data.getLast? = some '/' := by
    simpa [jsEndsWithChar] using h
  cases s with
  | mk l =>
    show String.mk (l.dropLast ++ "/".data) = String.mk l
    congr 1
    exact dropLast_append_getLast?_char l '/' hl

theorem halt_body_of_falsy {F S E : Type} (ctx : ContextState F S E) (s : Nat)
    (v : JSONValue) (hv : jsTruthy v = false) :
    (halt ctx s (some v)).body = .str (HTTP_STATUS_CODES s) := by
  simp [halt, hv]

/-! ## Claim theorems -/

/-- Claim C1: for every registered set of routes and every request, the
Matcher selects the first route in registration order whose full pattern
matches the request path; in particular, for two routes registered in order
`/a/*rest` then `/a/b`, a request to `/a/b` matches the first (wildcard)
route and never the second — no specificity re-ranking occurs across
routes. -/
theorem claim_C1_matcher_registration_order :
    (∀ (pre : List Route) (r : Route) (post : List Route) (method path : String)
        (b : Bindings),
      (∀ r' ∈ pre, r'.method = method → matchSegs r'.segments (pathSegments path) = none) →
      r.method = method →
      matchSegs r.segments (pathSegments path) = some b →
      matchRequest (pre ++ r :: post) method path = some (r, b))
    ∧ matchRequest [mkRoute "get" "/a/*rest", mkRoute "get" "/a/b"] "get" "/a/b"
        = some (mkRoute "get" "/a/*rest", [("rest", "b")])
    ∧ (∀ b : Bindings,
        matchRequest [mkRoute "get" "/a/*rest", mkRoute "get" "/a/b"] "get" "/a/b"
          ≠ some (mkRoute "get" "/a/b", b)) := by
  have hconc : matchRequest [mkRoute "get" "/a/*rest", mkRoute "get" "/a/b"] "get" "/a/b"
      = some (mkRoute "get" "/a/*rest", [("rest", "b")]) := by
    simp [matchRequest, mkRoute, matchSegs, findSplit, compilePattern, pathSegments,
      jsSplit, splitChars, compileSegment, jsJoin, joinChars, List.findSome?]
  refine ⟨matchRequest_first_match, hconc, ?_⟩
  intro b hb
  rw [hconc] at hb
  simp only [Option.some.injEq, Prod.mk.injEq] at hb
  have : mkRoute "get" "/a/*rest" = mkRoute "get" "/a/b" := hb.1
  simp [mkRoute, compilePattern, pathSegments, jsSplit, splitChars, compileSegment] at this

/-- Claim C1 witness: the first-match law applied at a concrete registry
with a failing prefix route. -/
theorem claim_C1_matcher_registration_order_witness :
    matchRequest [mkRoute "get" "/x", mkRoute "get" "/p/:id"] "get" "/p/7"
      = some (mkRoute "get" "/p/:id", [("id", "7")]) := by
  have h := claim_C1_matcher_registration_order.1 [mkRoute "get" "/x"]
    (mkRoute "get" "/p/:id") [] "get" "/p/7" [("id", "7")]
    (by
      intro r' hr' _
      simp only [List.mem_singleton] at hr'
      subst hr'
      simp [mkRoute, matchSegs, compilePattern, pathSegments, jsSplit, splitChars,
        compileSegment])
    rfl
    (by simp [mkRoute, matchSegs, compilePattern, pathSegments, jsSplit, splitChars,
      compileSegment])
  simpa using h

/-- Claim C2 counterexample: `halt(200, "")` does not carry the supplied
(falsy) empty-string body; `body || HTTP_STATUS_CODES[statusCode]` replaces
it by the reason phrase `"OK"`. -/
theorem claim_C2_halt_body_counterexample :
    (halt sampleCtx 200 (some (.str ""))).body = .str "OK"
    ∧ (halt sampleCtx 200 (some (.str ""))).body ≠ .str "" := by
  have h := halt_body_of_falsy sampleCtx 200 (.str "") (by simp [jsTruthy])
  have h2 : HTTP_STATUS_CODES 200 = "OK" := rfl
  constructor
  · rw [h, h2]
  · rw [h, h2]
    simp

/-- Claim C2 (amended): `halt(s, b)` never returns normally — it throws a
`ZarfHaltError` carrying exactly `s` as the status (both on the error and in
its `ResponseInit`), the current response headers and status text, and
exactly `b` as the body whenever `b` is truthy; a falsy or omitted body is
replaced by the standard reason phrase for `s`. -/
theorem claim_C2_halt_payload {F S E : Type} (ctx : ContextState F S E) (s : Nat)
    (b : Option JSONValue) :
    (halt ctx s b).status = s
    ∧ (halt ctx s b).responseInit.status = some s
    ∧ (halt ctx s b).responseInit.headers = (getResponseInit ctx).headers
    ∧ (halt ctx s b).responseInit.statusText = (getResponseInit ctx).statusText
    ∧ (∀ v, b = some v → jsTruthy v = true → (halt ctx s b).body = v)
    ∧ (∀ v, b = some v → jsTruthy v = false →
        (halt ctx s b).body = .str (HTTP_STATUS_CODES s))
    ∧ (b = none → (halt ctx s b).body = .str (HTTP_STATUS_CODES s)) := by
  refine ⟨rfl, rfl, rfl, rfl, ?_, ?_, ?_⟩
  · rintro v rfl hv
    simp [halt, hv]
  · rintro v rfl hv
    simp [halt, hv]
  · rintro rfl
    rfl

/-- Claim C2 witness: a truthy body is carried exactly, with the status. -/
theorem claim_C2_halt_payload_witness :
    (halt sampleCtx 401 (some (.str "You shall not pass"))).body
        = .str "You shall not pass"
    ∧ (halt sampleCtx 401 (some (.str "You shall not pass"))).status = 401 :=
  ⟨(claim_C2_halt_payload sampleCtx 401 (some (.str "You shall not pass"))).2.2.2.2.1
      (.str "You shall not pass") rfl rfl,
   (claim_C2_halt_payload sampleCtx 401 (some (.str "You shall not pass"))).1⟩

/-- Claim C3: without strict routing, the context's normalized path equals
the request pathname with a single trailing slash removed whenever the
pathname is non-root and ends in a slash, and equals the pathname unchanged
otherwise (including the root path `/`); with strict routing, the path is
always the pathname unchanged. -/
theorem claim_C3_path_normalization {F S E : Type} (req : RequestM) (cfg : ConfigM)
    (loc : S) :
    (mkContext (F := F) (E := E) req cfg loc).path
        = normalizePath cfg.strictRouting req.pathname
    ∧ (cfg.strictRouting = true →
        (mkContext (F := F) (E := E) req cfg loc).path = req.pathname)
    ∧ (cfg.strictRouting = false → req.pathname = "/" →
        (mkContext (F := F) (E := E) req cfg loc).path = req.pathname)
    ∧ (cfg.strictRouting = false → req.pathname ≠ "/" →
        jsEndsWithChar '/' req.pathname = true →
        (mkContext (F := F) (E := E) req cfg loc).path = jsDropLast req.pathname
        ∧ (mkContext (F := F) (E := E) req cfg loc).path ++ "/" = req.pathname)
    ∧ (cfg.strictRouting = false → jsEndsWithChar '/' req.pathname = false →
        (mkContext (F := F) (E := E) req cfg loc).path = req.pathname) := by
  refine ⟨rfl, ?_, ?_, ?_, ?_⟩
  · intro hs
    simp [mkContext, normalizePath, hs]
  · intro hs hp
    simp [mkContext, normalizePath, hs, hp]
  · intro hs hp hsl
    have h1 : (mkContext (F := F) (E := E) req cfg loc).path = jsDropLast req.pathname := by
      simp [mkContext, normalizePath, hs, hp, hsl]
    exact ⟨h1, by rw [h1]; exact jsDropLast_append_slash req.pathname hsl⟩
  · intro hs hsl
    have hp : req.pathname ≠ "/" := by
      intro h
      rw [h] at hsl
      simp [jsEndsWithChar] at hsl
    simp [mkContext, normalizePath, hs, hp, hsl]

/-- Claim C3 witness: `/foo/` normalizes to `/foo` under the default
configuration. -/
theorem claim_C3_path_normalization_witness :
    (mkContext (F := Unit) (S := Unit) (E := Unit)
      ⟨"GET", "/foo/", "example.com", []⟩ {} ()).path = "/foo" := by
  have h := (claim_C3_path_normalization (F := Unit) (S := Unit) (E := Unit)
    ⟨"GET", "/foo/", "example.com", []⟩ {} ()).2.2.2.1 rfl (by decide) rfl
  rw [h.1]
  rfl

/-- Claim C4: each after-middleware enqueued dynamically through the
Context's `after` API executes exactly once — the executed trace equals the
queue, in order — when the request completed normally or was halted, and
never executes when the request terminated with a non-halt fault. -/
theorem claim_C4_after_middleware_execution {F S E : Type} (ctx : ContextState F S E)
    (ops : List (ContextOp F S E)) (s : Nat) (bd : JSONValue) :
    dispatchAfterRun (.halted s bd) (afterMiddlewares (applyOps ctx ops))
        = afterMiddlewares (applyOps ctx ops)
    ∧ dispatchAfterRun .completed (afterMiddlewares (applyOps ctx ops))
        = afterMiddlewares (applyOps ctx ops)
    ∧ dispatchAfterRun .faulted (afterMiddlewares (applyOps ctx ops)) = [] := by
  refine ⟨?_, ?_, rfl⟩ <;> simp [dispatchAfterRun, runAfterChain_eq]

/-- Claim C5: each wildcard binds a contiguous `/`-joined run of request
segments, never split: a lone final wildcard consumes all remaining segments
joined by `/`, and for pattern `/v1/*brand/shop/*name`, requesting
`/v1/acme/shop/widgets/1` binds `brand` to `"acme"` and `name` to
`"widgets/1"`. -/
theorem claim_C5_wildcard_bindings :
    (∀ (n q : String) (qs : List String),
      matchSegs [Segment.wildcard n] (q :: qs) = some [(n, jsJoin '/' (q :: qs))])
    ∧ matchSegs (compilePattern "/v1/*brand/shop/*name")
        (pathSegments "/v1/acme/shop/widgets/1")
        = some [("brand", "acme"), ("name", "widgets/1")] := by
  constructor
  · intro n q qs
    simp only [matchSegs]
    rw [findSplit_matchNil qs [q]]
    simp
  · simp [matchSegs, findSplit, compilePattern, pathSegments, jsSplit, splitChars,
      compileSegment, jsJoin, joinChars]

/-- Claim C6: for pattern `/user/:name?`, requesting `/user` matches with the
`name` binding absent (no entry in the bindings), and requesting `/user/a`
matches binding `name` to `"a"`. -/
theorem claim_C6_optional_param :
    matchSegs (compilePattern "/user/:name?") (pathSegments "/user") = some []
    ∧ matchSegs (compilePattern "/user/:name?") (pathSegments "/user/a")
        = some [("name", "a")] := by
  constructor <;>
    simp [matchSegs, compilePattern, pathSegments, jsSplit, splitChars, compileSegment]

/-- Claim C7: the dynamic after-middleware queue is an ordered list preserved
by every Context operation — after any operation sequence, `afterMiddlewares`
is the original queue extended by exactly the `after`-registered functions in
call order, and on a fresh context it is exactly that call list. -/
theorem claim_C7_after_queue_order {F S E : Type} (ctx : ContextState F S E)
    (ops : List (ContextOp F S E)) (req : RequestM) (cfg : ConfigM) (loc : S) :
    afterMiddlewares (applyOps ctx ops) = afterMiddlewares ctx ++ afterCalls ops
    ∧ afterMiddlewares (applyOps (mkContext req cfg loc) ops) = afterCalls ops := by
  constructor
  · simpa [afterMiddlewares] using applyOps_middlewares ops ctx
  · simpa [afterMiddlewares, mkContext] using applyOps_middlewares ops (mkContext req cfg loc)

/-- Claim C8: for a context whose underlying request method is `HEAD`,
`send(body)` discards the supplied body and returns the response produced by
`head()` — a response carrying only the current status, status text and
headers, with no body. -/
theorem claim_C8_send_head {F S E : Type} (ctx : ContextState F S E) (body : JSONValue)
    (args : ResponseInitM) (h : ctx.request.method = "HEAD") :
    ctxSend ctx body args = ctxHead ctx
    ∧ ctxSend ctx body args = headHelper (getResponseInit ctx)
    ∧ (ctxSend ctx body args).body = none := by
  have h1 : ctxSend ctx body args = ctxHead ctx := by simp [ctxSend, h]
  have h2 : ctxHead ctx = headHelper (getResponseInit ctx) := by
    rw [ctxHead, mergeInit_empty]
  exact ⟨h1, h1.trans h2, by rw [h1, h2]; rfl⟩

/-- Claim C8 witness: a concrete `HEAD` request context. -/
theorem claim_C8_send_head_witness :
    ctxSend sampleHeadCtx (.str "ignored") {} = ctxHead sampleHeadCtx
    ∧ (ctxSend sampleHeadCtx (.str "ignored") {}).body = none :=
  ⟨(claim_C8_send_head sampleHeadCtx (.str "ignored") {} rfl).1,
   (claim_C8_send_head sampleHeadCtx (.str "ignored") {} rfl).2.2⟩

/-- Claim C9: the context's `method` is always the lowercase form of the
request's HTTP method (`GET` yields `get`) and is never changed by any
context operation. -/
theorem claim_C9_method_lowercase {F S E : Type} (req : RequestM) (cfg : ConfigM)
    (loc : S) (ops : List (ContextOp F S E)) :
    (applyOps (mkContext req cfg loc) ops).method = jsToLower req.method
    ∧ (mkContext (F := F) (E := E) ⟨"GET", req.pathname, req.host, req.reqHeaders⟩
        cfg loc).method = "get" := by
  constructor
  · rw [applyOps_method]
    rfl
  · rfl

/-- Claim C10: `setVary` is idempotent for comma-free header values — calling
it a second time with the same values leaves the context (in particular the
response's `Vary` header) unchanged, because already-present values are
deduplicated before being joined back. -/
theorem claim_C10_setVary_idempotent {F S E : Type} (ctx : ContextState F S E)
    (vals : List String) (hvals : ∀ v ∈ vals, charFree ',' v) :
    setVary (setVary ctx vals) vals = setVary ctx vals := by
  by_cases hv : vals.isEmpty
  · simp [setVary, hv]
  · have hv' : vals.isEmpty = false := by simpa using hv
    cases hr : ctx.response with
    | none => simp [setVary, hv', hr]
    | some r =>
      simp only [setVary, hv', Bool.false_eq_true, if_false, hr]
      rw [headersGet_headersSet_self, varyValue_idem _ _ hvals,
        headersSet_headersSet_self]

/-- Claim C10 witness: two identical `setVary` calls on a concrete context. -/
theorem claim_C10_setVary_idempotent_witness :
    setVary (setVary sampleCtx ["Accept", "User-Agent"]) ["Accept", "User-Agent"]
      = setVary sampleCtx ["Accept", "User-Agent"] :=
  claim_C10_setVary_idempotent sampleCtx ["Accept", "User-Agent"] (by decide)

end Zarf
